import Mathlib

/-!
Verification of the Typo_graphics glyph-matching and instruction-synthesis
engine, shallowly embedded from the Python sources `glyph.py` and
`typograph.py`.

Conventions of the embedding:
* PIL images are modelled as a color mode, a pixel size and a flat list of
  integer pixel values (`PImage`); pixelwise-darker composition
  (`ImageChops.darker`) is the pointwise minimum, treated as a primitive
  raster operation.
* Python dictionaries keyed by glyph name are modelled as functions
  `String → Option Glyph`.
* Machine floats are modelled as exact rationals (`ℚ`).  Euclidean
  distances are irrational, so the matcher represents every distance by its
  square (a rational); all comparisons the source performs on distances are
  reproduced on the squares, which is faithful because `Real.sqrt` is
  strictly monotone on nonnegative reals.  The one comparison that is not
  reducible to squares — the simplicity-bias cutoff test — is decided
  exactly by an algebraic procedure (`cutoffTest`) whose agreement with the
  real-number inequality is proved (`cutoffTest_eq_true_iff`).
-/

/-- Model of a PIL image: color mode, pixel dimensions, flat row-major
pixel data.  PIL image equality compares class, mode, size and raw bytes;
structural equality of this model captures exactly that. -/
structure PImage where
  mode : String
  size : Nat × Nat
  data : List Nat
deriving DecidableEq, Repr

/-- Pixelwise-darker composition of two images, the model of
`PIL.ImageChops.darker` on size- and mode-matched operands.  It is treated
as a primitive raster operation; the `ValueError` that `ImageChops.darker`
raises on size-mismatched operands is surfaced by `glyphAdd`, which guards
this function's use exactly as the exception would interrupt
`Glyph.__add__`. -/
def PImage.darker (a b : PImage) : PImage :=
  { mode := a.mode, size := a.size, data := List.zipWith min a.data b.data }

/-- Content of a glyph as compared by `Glyph.__eq__`: name, image and
samples.  (`Glyph.__eq__` ignores the component list.) -/
structure GlyphData where
  name : String
  image : PImage
  samples : Nat × Nat
deriving DecidableEq, Repr

/-- Model of a `Glyph` object: its content plus its component list.  In the
source an atomic glyph stores `[self]` in `components`; here the self
reference is represented by the glyph's own content, which is sufficient
because every use of a component (equality tests and `name`) only reads
content. -/
structure Glyph where
  data : GlyphData
  components : List GlyphData
deriving DecidableEq, Repr

/-- Model of `Glyph.__eq__` from `glyph.py`: two glyphs compare equal iff
their `name`, `image` and `samples` agree; `components` plays no part. -/
def pyGlyphEq (a b : Glyph) : Bool :=
  a.data.name == b.data.name && a.data.image == b.data.image &&
    a.data.samples == b.data.samples

/-- Comparison key used by `Glyph.__add__` when sorting components:
`sorted(..., key=lambda g: g.name)`. -/
def nameLe (a b : GlyphData) : Bool :=
  a.name ≤ b.name

/-- The successful branch of `Glyph.__add__` from `glyph.py`: combined
image is the pixelwise-darker composite, combined components are the two
component lists concatenated and stably sorted by name, and the combined
name is the space-joined list of sorted component names. -/
def glyphCombine (a b : Glyph) : Glyph :=
  let components := List.mergeSort (a.components ++ b.components) nameLe
  let name := String.intercalate " " (components.map GlyphData.name)
  { data := { name := name,
              image := PImage.darker a.data.image b.data.image,
              samples := a.data.samples },
    components := components }

/-- A Python value passed as the right operand of `Glyph.__add__`: either a
glyph or some non-glyph object (the `isinstance` check only looks at the
class). -/
inductive PyVal where
  | glyph (g : Glyph)
  | nonGlyph (repr : String)
deriving DecidableEq

/-- Outcome of `Glyph.__add__`: the three guard raises, the `ValueError`
that `ImageChops.darker` itself raises when the operand images' sizes do
not match (`glyph.py` line 83 does not guard against this), or the
combined glyph. -/
inductive AddOutcome where
  | ok (g : Glyph)
  | typeError
  | samplesValueError
  | modeValueError
  | darkerValueError
deriving DecidableEq

/-- Model of the full `Glyph.__add__` from `glyph.py`, in source order:
non-glyph operand raises `TypeError`, unequal `samples` raises
`ValueError`, unequal image modes raises `ValueError`; past the three
guards the `ImageChops.darker` call itself raises `ValueError` ("images do
not match") when the two images' pixel sizes differ, and otherwise the
combined glyph is returned. -/
def glyphAdd (self : Glyph) (other : PyVal) : AddOutcome :=
  match other with
  | .nonGlyph _ => .typeError
  | .glyph o =>
    if self.data.samples ≠ o.data.samples then .samplesValueError
    else if self.data.image.mode ≠ o.data.image.mode then .modeValueError
    else if self.data.image.size ≠ o.data.image.size then .darkerValueError
    else .ok (glyphCombine self o)

/-! ### Matcher: `Typograph._find_closest_glyph` and its tree sets -/

/-- Glyph as seen by the matcher: a name identifying it and the fingerprint
vector its `cKDTree` entry is built from (`glyph.fingerprint.getdata()`).
Pixel values are modelled as exact rationals. -/
structure FGlyph where
  name : String
  fingerprint : List ℚ
deriving DecidableEq, Repr

/-- Model of the `TreeSet` named tuple from `typograph.py`: the glyph set,
its summary statistics, and the stack size.  The `cKDTree` itself is
modelled by exhaustive nearest-neighbour search over `glyphSet` (`queryTree`
below). -/
structure TreeSet where
  glyphSet : List FGlyph
  centroid : List ℚ
  meanSquareFromCentroid : ℚ
  stackSize : Nat
deriving DecidableEq, Repr

/-- Squared Euclidean distance between two vectors. -/
def sqDist (a b : List ℚ) : ℚ :=
  (List.zipWith (fun x y => (x - y) ^ 2) a b).sum

/-- Per-coordinate sum of a list of equal-length vectors. -/
def vecSum : List (List ℚ) → List ℚ
  | [] => []
  | v :: vs => vs.foldl (fun acc w => List.zipWith (· + ·) acc w) v

/-- Mean vector of a list of vectors; `np.mean(glyph_data, axis=0)` in
`Typograph._calculate_trees`. -/
def vecCentroid (data : List (List ℚ)) : List ℚ :=
  (vecSum data).map (· / (data.length : ℚ))

/-- Mean squared distance of the vectors from their centroid;
`np.mean(((glyph_data - centroid) ** 2).sum(axis=1))` in
`Typograph._calculate_trees`. -/
def meanSqFromCentroid (data : List (List ℚ)) : ℚ :=
  ((data.map (fun v => sqDist v (vecCentroid data))).sum) / (data.length : ℚ)

/-- Build a tree set from its glyph list and stack size, deriving centroid
and mean-square statistics exactly as `Typograph._calculate_trees` does. -/
def mkTreeSet (gs : List FGlyph) (stackSize : Nat) : TreeSet :=
  { glyphSet := gs,
    centroid := vecCentroid (gs.map FGlyph.fingerprint),
    meanSquareFromCentroid := meanSqFromCentroid (gs.map FGlyph.fingerprint),
    stackSize := stackSize }

/-- First-minimum selection: scan left to right keeping the current best,
replacing it only on a strictly smaller key.  This is the semantics of
Python's `min` (first minimal element wins). -/
def minByFirstAux {α : Type} (key : α → ℚ) (b : α) : List α → α
  | [] => b
  | x :: xs => minByFirstAux key (if key x < key b then x else b) xs

/-- Wrapper of `minByFirstAux` for possibly empty lists (Python `min`
raises there; the `Option` models that). -/
def minByFirst {α : Type} (key : α → ℚ) : List α → Option α
  | [] => none
  | x :: xs => some (minByFirstAux key x xs)

/-- Indexed first-minimum scan over a distance list: `best` is the current
(distance, index) pair and `i` the index of the next element. -/
def argminAux (best : ℚ × Nat) (i : Nat) : List ℚ → ℚ × Nat
  | [] => best
  | d :: ds => argminAux (if d < best.1 then (d, i) else best) (i + 1) ds

/-- Model of `tree.query(target)` for the `cKDTree` over a tree set's
fingerprints: the (squared) distance to the nearest stored fingerprint
together with its index, earliest index winning ties. -/
def queryTree (ts : TreeSet) (target : List ℚ) : Option (ℚ × Nat) :=
  match ts.glyphSet.map (fun g => sqDist g.fingerprint target) with
  | [] => none
  | d :: ds => some (argminAux (d, 0) 1 ds)

/-- The `neighbours` list of `_find_closest_glyph`: one
`(tree_set, distance, index)` triple per tree set, in tree-set order;
`none` when some tree set is empty (where `cKDTree` could not exist). -/
def collectNeighbours (treeSets : List TreeSet) (target : List ℚ) :
    Option (List (TreeSet × ℚ × Nat)) :=
  match treeSets with
  | [] => some []
  | ts :: rest =>
    match queryTree ts target, collectNeighbours rest target with
    | some di, some ns => some ((ts, di) :: ns)
    | _, _ => none

/-- Decide `√a < √b + t·√r` for rationals `a b r ≥ 0` by repeated squaring.
This is the kernel of the exact decision of the cutoff comparison. -/
def sqrtLtAddSqrt (a b t r : ℚ) : Bool :=
  if 0 ≤ t then
    let l := a - b - t ^ 2 * r
    decide (l < 0) || decide (l ^ 2 < 4 * t ^ 2 * (b * r))
  else
    let m := b - a - t ^ 2 * r
    decide (0 < m) && decide (4 * t ^ 2 * (a * r) < m ^ 2)

/-- Decide `√b + t·√r < √a` for rationals `a b r ≥ 0`. -/
def addSqrtLtSqrt (b t r a : ℚ) : Bool :=
  if t ≤ 0 then sqrtLtAddSqrt b a (-t) r
  else
    let l := a - b - t ^ 2 * r
    decide (0 < l) && decide (4 * t ^ 2 * (b * r) < l ^ 2)

/-- Decide the cutoff comparison of `_find_closest_glyph`,
`(√a - √b) / (k·√r) < c`, where `a` is the candidate's squared distance,
`b` the squared best distance, `k` the stack-size difference and `r` the
squared root-mean-square distance (`Typograph._root_mean_square_distance`
squares to `sqDist target centroid + mean_square_from_centroid`).  Division
by a zero denominator follows the real-number convention `x / 0 = 0`. -/
def cutoffTest (a b : ℚ) (k : ℤ) (r : ℚ) (c : ℚ) : Bool :=
  if k = 0 ∨ r ≤ 0 then decide (0 < c)
  else if 0 < k then sqrtLtAddSqrt a b c ((k : ℚ) ^ 2 * r)
  else addSqrtLtSqrt b (-c) ((k : ℚ) ^ 2 * r) a

/-- The cutoff predicate applied to one `neighbours` entry, with `bestStack`
and squared best distance fixed: mirrors the body of the `for` loop of
`_find_closest_glyph` (lines 785-791). -/
def cutoffHit (target : List ℚ) (bestStack : Nat) (bestSq : ℚ) (cutoff : ℚ)
    (n : TreeSet × ℚ × Nat) : Bool :=
  cutoffTest n.2.1 bestSq ((bestStack : ℤ) - (n.1.stackSize : ℤ))
    (sqDist target n.1.centroid + n.1.meanSquareFromCentroid) cutoff

/-- Core of `Typograph._find_closest_glyph` (lines 768-793), after the
transparency pre-pass: query every tree set, take the global first-minimum,
let a computed background distance pre-empt it, then scan the first
`best_stack_size - 1` neighbours for a simplicity-biased substitution.
Distances are represented by their squares; `none` models the exceptions
Python would raise on an empty tree-set list, an empty tree or an
out-of-range index (none of which occur on well-formed states). -/
def findClosestGlyphCore (treeSets : List TreeSet) (target : List ℚ)
    (cutoff : ℚ) (bgSq : Option ℚ) (bgGlyph : Option FGlyph) :
    Option (FGlyph × ℚ) := do
  let neighbours ← collectNeighbours treeSets target
  let best ← minByFirst (fun n => n.2.1) neighbours
  let bestGlyph0 ← best.1.glyphSet[best.2.2]?
  let (bestGlyph, bestSq) :=
    match bgSq, bgGlyph with
    | some bsq, some bglyph =>
      if bsq < best.2.1 then (bglyph, bsq) else (bestGlyph0, best.2.1)
    | _, _ => (bestGlyph0, best.2.1)
  match (neighbours.take (best.1.stackSize - 1)).find?
      (cutoffHit target best.1.stackSize bestSq cutoff) with
  | some n => (n.1.glyphSet[n.2.2]?).map (fun g => (g, n.2.1))
  | none => some (bestGlyph, bestSq)

/-- Alpha-blend a partially transparent target block against the background
glyph's fingerprint, per pixel:
`target*alpha/255 + background*(255-alpha)/255` (line 762). -/
def blendTarget (background : List ℚ) (target : List (ℚ × ℚ)) : List ℚ :=
  List.zipWith
    (fun backValue p => p.1 * p.2 / 255 + backValue * (255 - p.2) / 255)
    background target

/-- Model of `Typograph._find_closest_glyph` when a background glyph is
supplied; the target then carries `(value, alpha)` pairs.  A fully
transparent block returns the background glyph with a `None` distance; a
mixed block blends in the background fingerprint and lets the background
distance compete; an opaque block strips the alpha channel.  The returned
distance is represented by its square. -/
def findClosestGlyph (treeSets : List TreeSet) (target : List (ℚ × ℚ))
    (cutoff : ℚ) (bg : FGlyph) : Option (FGlyph × Option ℚ) :=
  if target.all (fun p => p.2 < 255) then
    some (bg, none)
  else if target.any (fun p => p.2 < 255) then
    let blended := blendTarget bg.fingerprint target
    (findClosestGlyphCore treeSets blended cutoff
        (some (sqDist bg.fingerprint blended)) (some bg)).map
      (fun p => (p.1, some p.2))
  else
    (findClosestGlyphCore treeSets (target.map Prod.fst) cutoff none
        none).map
      (fun p => (p.1, some p.2))

/-- Model of `Typograph._find_closest_glyph` with `background_glyph=None`:
the target is a plain intensity vector and no transparency pre-pass runs. -/
def findClosestGlyphNoBg (treeSets : List TreeSet) (target : List ℚ)
    (cutoff : ℚ) : Option (FGlyph × ℚ) :=
  findClosestGlyphCore treeSets target cutoff none none

/-! ### Python `str.lower` -/

/-- Model of Python's `str.lower()` on the ASCII selector strings this code
passes around: lower-case each character.  (Defined structurally over the
character list so that concrete instances reduce in the kernel;
extensionally it is `String.toLower`.) -/
def pyLower (s : String) : String :=
  String.mk (s.data.map Char.toLower)

/-! ### Glyph pool manager: `add_glyph` / `remove_glyph` -/

/-- State of the glyph pool manager: the `glyphs` and `standalone_glyphs`
dictionaries of a `Typograph`, keyed by glyph name. -/
structure PoolState where
  glyphs : String → Option Glyph
  standalone : String → Option Glyph

/-- Model of `Typograph.add_glyph` (lines 479-500): insert into the target
dictionary and pop the name from the other one.  (The subsequent
`_recalculate_glyphs` rebuild does not touch the two dictionaries.) -/
def addGlyph (s : PoolState) (g : Glyph) (useInCombinations : Bool) :
    PoolState :=
  if useInCombinations then
    { glyphs := fun n => if n = g.data.name then some g else s.glyphs n,
      standalone := fun n =>
        if n = g.data.name then none else s.standalone n }
  else
    { glyphs := fun n => if n = g.data.name then none else s.glyphs n,
      standalone := fun n =>
        if n = g.data.name then some g else s.standalone n }

/-- Model of `Typograph.remove_glyph` (lines 502-537): lower-case the
`remove_from` selector, pop from the selected dictionaries, and return the
combination-pool hit preferentially, then the standalone hit. -/
def removeGlyph (s : PoolState) (name : String) (removeFrom : String) :
    PoolState × Option Glyph :=
  let rf := pyLower removeFrom
  let hitCombination :=
    rf = "both" ∨ rf = "b" ∨ rf = "combinations" ∨ rf = "c"
  let hitStandalone :=
    rf = "both" ∨ rf = "b" ∨ rf = "standalone" ∨ rf = "s"
  let fromCombination := if hitCombination then s.glyphs name else none
  let fromStandalone := if hitStandalone then s.standalone name else none
  ({ glyphs := fun n =>
       if hitCombination ∧ n = name then none else s.glyphs n,
     standalone := fun n =>
       if hitStandalone ∧ n = name then none else s.standalone n },
   fromCombination.orElse (fun _ => fromStandalone))

/-- One mutation of the glyph pool. -/
inductive PoolOp where
  | add (g : Glyph) (useInCombinations : Bool)
  | remove (name : String) (removeFrom : String)

/-- Apply one pool operation to a state. -/
def applyPoolOp (s : PoolState) : PoolOp → PoolState
  | .add g u => addGlyph s g u
  | .remove n rf => (removeGlyph s n rf).1

/-- Apply a finite sequence of pool operations, left to right. -/
def applyPoolOps (s : PoolState) (ops : List PoolOp) : PoolState :=
  ops.foldl applyPoolOp s

/-- A name is present in at most one of the two pool dictionaries. -/
def atMostOne (s : PoolState) (n : String) : Prop :=
  (s.glyphs n).isSome = false ∨ (s.standalone n).isSome = false

/-- A name is present in exactly one of the two pool dictionaries. -/
def exactlyOne (s : PoolState) (n : String) : Prop :=
  ((s.glyphs n).isSome = true ∧ (s.standalone n).isSome = false) ∨
    ((s.glyphs n).isSome = false ∧ (s.standalone n).isSome = true)

/-! ### Chunker: `Typograph._chunk` -/

/-- One chunk of `Typograph._chunk`: the comprehension
`[image_data[column + row * target_width * sample_x] for row in rows
for column in columns]` with `rows = range(sample_y*y, sample_y*(y+1))` and
`columns = range(sample_x*x, sample_x*(x+1))`.  Out-of-range indices
default to `0` (Python would raise; the hypotheses of the theorems keep all
indices in range). -/
def chunkCell (imageData : List ℕ) (targetWidth sampleX sampleY x y : ℕ) :
    List ℕ :=
  (List.range' (sampleY * y) sampleY).flatMap fun row =>
    (List.range' (sampleX * x) sampleX).map fun column =>
      imageData.getD (column + row * targetWidth * sampleX) 0

/-- Model of `Typograph._chunk`: traverse glyph cells top-to-bottom then
left-to-right, appending one `chunkCell` per cell. -/
def chunk (imageData : List ℕ) (targetWidth sampleX sampleY : ℕ) :
    List (List ℕ) :=
  let height := imageData.length / (targetWidth * sampleY * sampleX)
  (List.range height).flatMap fun y =>
    (List.range targetWidth).map fun x =>
      chunkCell imageData targetWidth sampleX sampleY x y

/-! ### Preprocessor: the `rescale_intensity` window of
`Typograph._preprocess` -/

/-- Python `int()` applied to an exact rational: truncation toward zero. -/
def ratTrunc (q : ℚ) : ℤ :=
  Int.tdiv q.num (q.den : ℤ)

/-- The intensity output window computed by `Typograph._preprocess`
(lines 657-666) when `rescale_intensity` is not `None`: mean and range are
derived from `value_extrema`, the window bounds pass through Python
`int()` truncation, and are then clamped to `[0, 255]`. -/
def rescaleOutRange (extrema : ℚ × ℚ) (rescaleIntensity : ℚ) : ℤ × ℤ :=
  let meanValue := (extrema.1 + extrema.2) / 2
  let valueRange := extrema.2 - extrema.1
  let newMin :=
    max 0 (ratTrunc (meanValue - (rescaleIntensity / 2) * valueRange))
  let newMax :=
    min 255 (ratTrunc (meanValue + (rescaleIntensity / 2) * valueRange))
  (newMin, newMax)

/-- Average fingerprint pixel value of one glyph,
`sum(values) / len(values)` from `Typograph._average_glyph_values`. -/
def averageValue (values : List ℚ) : ℚ :=
  values.sum / (values.length : ℚ)

/-- The `value_extrema` statistic: minimum and maximum of the average
values (`Typograph._glyph_value_extrema`); `none` on an empty pool, where
Python `min` raises. -/
def valueExtrema (averages : List ℚ) : Option (ℚ × ℚ) :=
  match averages.min?, averages.max? with
  | some lo, some hi => some (lo, hi)
  | _, _ => none

/-! ### Fit-mode dispatch of `Typograph.image_to_text` -/

/-- The two sizing paths `image_to_text` can take. -/
inductive FitPath where
  | crop
  | scale
deriving DecidableEq, Repr

/-- Model of the fit-mode dispatch of `Typograph.image_to_text`
(lines 1001-1007): only a lower-cased `"crop"` selects the crop path, and
only then are the `max_size` entries checked for `None`; every other
string falls through to `_scale_to_max_size`. -/
def fitModeDispatch (fitMode : String) (maxSize : Option ℤ × Option ℤ) :
    Except String FitPath :=
  if pyLower fitMode = "crop" then
    if maxSize.1 = none ∨ maxSize.2 = none then
      Except.error "Crop fit mode requires both maximum dimensions"
    else Except.ok FitPath.crop
  else Except.ok FitPath.scale

/-! ### Instruction synthesizer: `Typograph._instructions` -/

/-- Build one cell's layer column in `Typograph._instructions`
(lines 872-891): start from `elements` spacer slots, keep every component
that already sat in a slot of the previous cell's column in that same slot
(removing the slot index from the free-index list), and fill deferred
components into the remaining free slots in order.  (`List.erase` is a
no-op on an absent index where Python `list.remove` would raise; that can
only happen for duplicated component atoms, which combination never
produces.) -/
def buildColumn (lastColumn : List GlyphData) (components : List GlyphData)
    (spacer : GlyphData) : List GlyphData :=
  let elements := max lastColumn.length components.length
  let start : List GlyphData × List ℕ × List GlyphData :=
    (List.replicate elements spacer, List.range elements, [])
  let step :=
    components.foldl
      (fun st atom =>
        if lastColumn.contains atom then
          let index := lastColumn.indexOf atom
          (st.1.set index atom, st.2.1.erase index, st.2.2)
        else (st.1, st.2.1, st.2.2 ++ [atom]))
      start
  (List.zip step.2.2 step.2.1).foldl (fun column p => column.set p.2 p.1)
    step.1

/-- The per-line column list of `Typograph._instructions`: fold over the
line's glyphs, threading the previous column. -/
def lineColumnsOf (line : List Glyph) (spacer : GlyphData) :
    List (List GlyphData) :=
  (line.foldl
      (fun (acc : List (List GlyphData) × List GlyphData) character =>
        let column := buildColumn acc.2 character.components spacer
        (acc.1 ++ [column], column))
      ([], [])).1

/-- Model of `itertools.zip_longest(*line_columns, fillvalue=spacer)`:
transpose the columns, padding short columns with the spacer. -/
def transposeFill (cols : List (List GlyphData)) (spacer : GlyphData) :
    List (List GlyphData) :=
  let numRows := (cols.map List.length).foldr max 0
  (List.range numRows).map fun r => cols.map fun col => col.getD r spacer

/-- Run-length encoding of one instruction row (lines 897-905): group
consecutive glyphs of equal name, optionally drop a trailing spacer group,
and render each group as count followed by name. -/
def encodeRow (row : List GlyphData) (spacer : GlyphData)
    (trailingSpacer : Bool) : List String :=
  let groups0 := row.splitBy (fun a b => a.name == b.name)
  let groups1 :=
    if trailingSpacer then groups0
    else
      match groups0.getLast? with
      | some lastGroup =>
        match lastGroup.head? with
        | some g => if g = spacer then groups0.dropLast else groups0
        | none => groups0
      | none => groups0
  groups1.map fun grp =>
    toString grp.length ++ ((grp.head?.map GlyphData.name).getD "")

/-- The Excel-like row-letter sequence of `Typograph._iter_all_strings`:
`a, b, ..., z, aa, ab, ...`; `excelString n` is the string the generator
yields on its `n`-th `next()` call. -/
def excelString (n : ℕ) : String :=
  if h : n < 26 then String.singleton (Char.ofNat (97 + n))
  else
    excelString (n / 26 - 1) ++ String.singleton (Char.ofNat (97 + n % 26))
termination_by n
decreasing_by
  have h26 : n / 26 < n := Nat.div_lt_self (by omega) (by omega)
  omega

/-- Zero-padding of the Python format spec `{number:0W}`. -/
def padZero (width : ℕ) (n : ℕ) : String :=
  let s := toString n
  String.mk (List.replicate (width - s.length) '0') ++ s

/-- Model of `Typograph._instructions` (lines 841-915): split the matched
glyph sequence into rows of `target_width`, build aligned layer columns per
row, transpose them into instruction rows, run-length-encode each row, and
prefix line number plus (for multi-layer rows) a row letter. -/
def instructions (resultGlyphs : List Glyph) (spacer : GlyphData)
    (targetWidth targetHeight : ℕ) (trailingSpacer : Bool) : List String :=
  let rowCounterLength := (toString targetHeight).length
  let lines :=
    (List.range targetHeight).map fun i =>
      (resultGlyphs.drop (i * targetWidth)).take targetWidth
  lines.enum.flatMap fun lp =>
    let cols := lineColumnsOf lp.2 spacer
    let rows := transposeFill cols spacer
    rows.enum.map fun rp =>
      let groups := encodeRow rp.2 spacer trailingSpacer
      let rowLetter :=
        if rows.length > 1 then excelString rp.1 else " "
      padZero rowCounterLength lp.1 ++ rowLetter ++ "| " ++
        String.intercalate " " groups

/-! ### Concrete states used by witnesses and counterexamples -/

/-- Ascending stack sizes, as `_calculate_trees` produces them: the `i`-th
tree set (0-based) holds stacks of `k + i` glyphs; instantiated at
`k = 1`. -/
def stacksOk (k : Nat) : List TreeSet → Bool
  | [] => true
  | ts :: rest => decide (ts.stackSize = k) && stacksOk (k + 1) rest

/-- Atomic glyph content used in concrete pool states: a 2 by 1 grayscale
image. -/
def glyphDataA : GlyphData := ⟨"a", ⟨"L", (2, 1), [3, 4]⟩, (3, 3)⟩

/-- Atomic glyph whose components list is itself, as `Glyph.__init__`
builds it. -/
def glyphA : Glyph := ⟨glyphDataA, [glyphDataA]⟩

/-- Second atomic glyph content, same mode, size and samples as
`glyphDataA`. -/
def glyphDataB : GlyphData := ⟨"b", ⟨"L", (2, 1), [10, 2]⟩, (3, 3)⟩

/-- Second atomic glyph. -/
def glyphB : Glyph := ⟨glyphDataB, [glyphDataB]⟩

/-- Third atomic glyph content: same mode and samples as `glyphDataA` but
a different image size (a 1 by 1 raster). -/
def glyphDataC : GlyphData := ⟨"c", ⟨"L", (1, 1), [5]⟩, (3, 3)⟩

/-- Third atomic glyph. -/
def glyphC : Glyph := ⟨glyphDataC, [glyphDataC]⟩

/-- No-ink spacer glyph content (all-white image). -/
def spacerData : GlyphData := ⟨"sp", ⟨"L", (2, 1), [255, 255]⟩, (3, 3)⟩

/-- Pool state holding only `glyphA`, in the combination pool — the state
of a freshly constructed `Typograph` with one glyph image. -/
def examplePool : PoolState :=
  { glyphs := fun n => if n = "a" then some glyphA else none,
    standalone := fun _ => none }

/-- A sample sequence of pool mutations exercising both maps. -/
def examplePoolOps : List PoolOp :=
  [PoolOp.add glyphB false, PoolOp.remove "a" "Both",
   PoolOp.add glyphB true]

/-- The 4 by 4 grayscale raster of the spec's chunking example, flattened
row-major. -/
def chunkExampleData : List ℕ :=
  [0, 0, 255, 255, 0, 0, 255, 255, 128, 128, 0, 255, 128, 128, 128, 0]

/-- Matcher glyph `a` of the two-glyph pool behind the C1 counterexample:
samples `(2, 1)`, image equal to its fingerprint `[0, 50]`. -/
def mFgA : FGlyph := ⟨"a", [0, 50]⟩

/-- Matcher glyph `b`, fingerprint `[50, 0]`. -/
def mFgB : FGlyph := ⟨"b", [50, 0]⟩

/-- Depth-2 composite `a b`: its image is the pixelwise darker of the two
component images, so its fingerprint is `[0, 0]`. -/
def mFgAB : FGlyph := ⟨"a b", [0, 0]⟩

/-- Background glyph supplied to the matcher in the C1 counterexample. -/
def mBg : FGlyph := ⟨"bg", [7, 4]⟩

/-- Tree sets of the pool `{a, b}` at `glyph_depth = 2`, statistics derived
as `_calculate_trees` derives them. -/
def treeSetsC1 : List TreeSet := [mkTreeSet [mFgA, mFgB] 1, mkTreeSet [mFgAB] 2]

/-- Partially transparent target block (`(value, alpha)` pairs): the first
pixel is opaque, the second fully transparent. -/
def targetC1 : List (ℚ × ℚ) := [(3, 255), (99, 0)]

/-- Single-glyph tree set list used by the C1 witness. -/
def treeSetsW1 : List TreeSet := [mkTreeSet [⟨"a", [20, 0]⟩] 1]

/-- Background glyph of the C1 witness. -/
def mBgW : FGlyph := ⟨"bg", [13, 0]⟩

/-- Partially transparent target of the C1 witness. -/
def targetW1 : List (ℚ × ℚ) := [(12, 255), (99, 0)]

/-- Matcher glyph `a` of the degenerate pool behind the C2 counterexample:
samples `(1, 1)`, fully dark image, fingerprint `[0]`. -/
def dFgA : FGlyph := ⟨"a", [0]⟩

/-- Matcher glyph `b` of that pool, fingerprint `[200]`. -/
def dFgB : FGlyph := ⟨"b", [200]⟩

/-- Depth-2 composite `a b` of that pool: darker of `[0]` and `[200]` is
`[0]`, so the composite's fingerprint duplicates that of `a`. -/
def dFgAB : FGlyph := ⟨"a b", [0]⟩

/-- Tree sets of the degenerate pool `{a, b}` at `glyph_depth = 2`. -/
def treeSetsC2 : List TreeSet := [mkTreeSet [dFgA, dFgB] 1, mkTreeSet [dFgAB] 2]

/-- Depth-1-only tree set list used by the C2 witness. -/
def treeSetsW2 : List TreeSet := [mkTreeSet [dFgA, dFgB] 1]

/-! ## Lemmas and theorems -/

theorem sqDist_cons (x y : ℚ) (xs ys : List ℚ) :
    sqDist (x :: xs) (y :: ys) = (x - y) ^ 2 + sqDist xs ys := by
  simp [sqDist]

theorem sqDist_nonneg (a b : List ℚ) : 0 ≤ sqDist a b := by
  induction a generalizing b with
  | nil => simp [sqDist]
  | cons x xs ih =>
    cases b with
    | nil => simp [sqDist]
    | cons y ys =>
      rw [sqDist_cons]
      exact add_nonneg (sq_nonneg _) (ih ys)

theorem sqDist_self (a : List ℚ) : sqDist a a = 0 := by
  induction a with
  | nil => simp [sqDist]
  | cons x xs ih => rw [sqDist_cons]; simp [ih]

/-- C10: `Glyph.__eq__` returns `True` exactly when name, image content and
samples all agree; the component lists play no part, so glyphs with
different components but identical content compare equal. -/
theorem pyGlyphEq_iff_content (a b : Glyph) :
    pyGlyphEq a b = true ↔
      (a.data.name = b.data.name ∧ a.data.image = b.data.image ∧
        a.data.samples = b.data.samples) := by
  simp [pyGlyphEq, and_assoc]

/-- C6 counterexample: two glyphs with equal samples and equal image
color mode but different image pixel sizes do raise — the `ValueError`
comes from `ImageChops.darker` at `glyph.py` line 83, which the three
guards do not cover — refuting the conjunct that equal samples and equal
modes suffice for no error to be raised. -/
theorem glyphAdd_size_counterexample :
    glyphA.data.samples = glyphC.data.samples ∧
      glyphA.data.image.mode = glyphC.data.image.mode ∧
      glyphA.data.image.size ≠ glyphC.data.image.size ∧
      glyphAdd glyphA (PyVal.glyph glyphC) = AddOutcome.darkerValueError ∧
      ¬∃ g, glyphAdd glyphA (PyVal.glyph glyphC) = AddOutcome.ok g := by
  refine ⟨by decide, by decide, by decide, by decide, ?_⟩
  rintro ⟨g, hg⟩
  rw [show glyphAdd glyphA (PyVal.glyph glyphC) = AddOutcome.darkerValueError
    by decide] at hg
  exact AddOutcome.noConfusion hg

/-- C6 amended: `Glyph.__add__` fails exactly on these preconditions, in
source order: a non-glyph right operand raises `TypeError`; unequal
samples raise `ValueError`; unequal image modes raise `ValueError`;
glyphs with equal samples and modes but unequal image sizes raise the
`ValueError` propagating out of `ImageChops.darker`; and with equal
samples, equal modes and equal image sizes no error is raised. -/
theorem glyphAdd_error_spec (s o : Glyph) (r : String) :
    glyphAdd s (PyVal.nonGlyph r) = AddOutcome.typeError ∧
    (glyphAdd s (PyVal.glyph o) = AddOutcome.samplesValueError ↔
      s.data.samples ≠ o.data.samples) ∧
    (glyphAdd s (PyVal.glyph o) = AddOutcome.modeValueError ↔
      (s.data.samples = o.data.samples ∧
        s.data.image.mode ≠ o.data.image.mode)) ∧
    (glyphAdd s (PyVal.glyph o) = AddOutcome.darkerValueError ↔
      (s.data.samples = o.data.samples ∧
        s.data.image.mode = o.data.image.mode ∧
        s.data.image.size ≠ o.data.image.size)) ∧
    ((∃ g, glyphAdd s (PyVal.glyph o) = AddOutcome.ok g) ↔
      (s.data.samples = o.data.samples ∧
        s.data.image.mode = o.data.image.mode ∧
        s.data.image.size = o.data.image.size)) := by
  refine ⟨rfl, ?_, ?_, ?_, ?_⟩ <;>
    · simp only [glyphAdd]
      split_ifs with h1 h2 h3 <;> simp_all

/-- C9: the fit-mode dispatch of `image_to_text` validates nothing unless
the lower-cased mode is literally `"crop"`: every other string silently
takes the scale path, and an error is raised exactly for lower-case
`"crop"` with a `None` entry in `max_size`. -/
theorem imageToText_fitMode_spec (s : String) (ms : Option ℤ × Option ℤ) :
    (pyLower s ≠ "crop" → fitModeDispatch s ms = Except.ok FitPath.scale) ∧
    ((∃ e, fitModeDispatch s ms = Except.error e) ↔
      (pyLower s = "crop" ∧ (ms.1 = none ∨ ms.2 = none))) := by
  unfold fitModeDispatch
  split_ifs with h1 h2 <;> simp_all

theorem imageToText_fitMode_spec_witness :
    pyLower "Crops" ≠ "crop" ∧
      fitModeDispatch "Crops" (none, some 5) = Except.ok FitPath.scale :=
  ⟨by decide, (imageToText_fitMode_spec "Crops" (none, some 5)).1 (by decide)⟩

/-- C4: instruction synthesis is deterministic — identical matched glyph
sequence, spacer, target dimensions and trailing-spacer flag always produce
the identical list of instruction strings. -/
theorem instructions_deterministic (g g' : List Glyph) (s s' : GlyphData)
    (w w' h h' : ℕ) (t t' : Bool) (hg : g = g') (hs : s = s') (hw : w = w')
    (hh : h = h') (ht : t = t') :
    instructions g s w h t = instructions g' s' w' h' t' := by
  subst hg hs hw hh ht
  rfl

theorem instructions_deterministic_witness :
    instructions [glyphA, glyphA] spacerData 2 1 false =
        instructions [glyphA, glyphA] spacerData 2 1 false ∧
      instructions [glyphA, glyphA] spacerData 2 1 false = ["0 | 2a"] :=
  ⟨instructions_deterministic [glyphA, glyphA] [glyphA, glyphA] spacerData
      spacerData 2 2 1 1 false false rfl rfl rfl rfl rfl,
    by decide⟩

theorem addGlyph_preserves_atMostOne (s : PoolState) (g : Glyph) (u : Bool)
    (n : String) (h : atMostOne s n) : atMostOne (addGlyph s g u) n := by
  by_cases hn : n = g.data.name <;> cases u <;>
    simp_all [addGlyph, atMostOne]

theorem addGlyph_exactlyOne (s : PoolState) (g : Glyph) (u : Bool) :
    exactlyOne (addGlyph s g u) g.data.name := by
  cases u <;> simp [addGlyph, exactlyOne]

theorem removeGlyph_preserves_atMostOne (s : PoolState) (name rf : String)
    (n : String) (h : atMostOne s n) :
    atMostOne ((removeGlyph s name rf).1) n := by
  rcases h with h | h <;> simp only [removeGlyph, atMostOne] <;>
    split_ifs <;> simp_all

theorem applyPoolOps_preserves_atMostOne (s : PoolState) (ops : List PoolOp)
    (h : ∀ n, atMostOne s n) : ∀ n, atMostOne (applyPoolOps s ops) n := by
  induction ops generalizing s with
  | nil => exact h
  | cons op rest ih =>
    refine ih (applyPoolOp s op) (fun n => ?_)
    cases op with
    | add g u => exact addGlyph_preserves_atMostOne s g u n (h n)
    | remove nm rf => exact removeGlyph_preserves_atMostOne s nm rf n (h n)

/-- C3: over any finite sequence of `add_glyph` / `remove_glyph` calls
starting from a state satisfying the exclusivity invariant (as a fresh
`Typograph` does, its standalone map being empty), every name stays in at
most one of `glyphs` and `standalone_glyphs`; and immediately after any
`add_glyph(g, use_in_combinations)` the name `g.name` is in exactly one of
the two maps — never both, never neither. -/
theorem pool_exclusivity (s : PoolState) (hdisj : ∀ n, atMostOne s n)
    (ops : List PoolOp) (g : Glyph) (u : Bool) :
    (∀ n, atMostOne (applyPoolOps s ops) n) ∧
      exactlyOne (addGlyph (applyPoolOps s ops) g u) g.data.name :=
  ⟨applyPoolOps_preserves_atMostOne s ops hdisj,
    addGlyph_exactlyOne (applyPoolOps s ops) g u⟩

theorem pool_exclusivity_witness :
    (∀ n, atMostOne examplePool n) ∧
      ((∀ n, atMostOne (applyPoolOps examplePool examplePoolOps) n) ∧
        exactlyOne (addGlyph (applyPoolOps examplePool examplePoolOps)
          glyphB true) glyphB.data.name) :=
  ⟨fun _ => Or.inr rfl,
    pool_exclusivity examplePool (fun _ => Or.inr rfl) examplePoolOps
      glyphB true⟩

theorem nameLe_trans (a b c : GlyphData) (h1 : nameLe a b = true)
    (h2 : nameLe b c = true) : nameLe a c = true := by
  simp only [nameLe, decide_eq_true_eq] at *
  exact le_trans h1 h2

theorem nameLe_total (a b : GlyphData) : nameLe a b || nameLe b a := by
  simp only [nameLe, Bool.or_eq_true, decide_eq_true_eq]
  exact le_total a.name b.name

theorem sorted_names_mergeSort (l : List GlyphData) :
    List.Sorted (· ≤ ·) ((List.mergeSort l nameLe).map GlyphData.name) := by
  have hp := @List.sorted_mergeSort GlyphData nameLe nameLe_trans
    nameLe_total l
  rw [List.Sorted, List.pairwise_map]
  exact hp.imp (fun h => by simpa [nameLe] using h)

theorem names_mergeSort_append_comm (xs ys : List GlyphData) :
    (List.mergeSort (xs ++ ys) nameLe).map GlyphData.name =
      (List.mergeSort (ys ++ xs) nameLe).map GlyphData.name := by
  refine List.eq_of_perm_of_sorted ?_ (sorted_names_mergeSort _)
    (sorted_names_mergeSort _)
  have h1 := (List.mergeSort_perm (xs ++ ys) nameLe).map GlyphData.name
  have h2 := (@List.perm_append_comm GlyphData xs ys).map GlyphData.name
  have h3 := (List.mergeSort_perm (ys ++ xs) nameLe).map GlyphData.name
  exact (h1.trans h2).trans h3.symm

/-- C5: for glyphs with equal samples, equal image color mode (and the
matching pixel dimensions `ImageChops.darker` requires), combination is
commutative under `Glyph.__eq__` content equality, the combined component
list has the two operand lists' total length and is sorted by name, and
joining the combined glyph's own component names with spaces reproduces
its name. -/
theorem glyphCombine_spec (a b : Glyph)
    (hs : a.data.samples = b.data.samples)
    (hm : a.data.image.mode = b.data.image.mode)
    (hsz : a.data.image.size = b.data.image.size) :
    pyGlyphEq (glyphCombine a b) (glyphCombine b a) = true ∧
    (glyphCombine a b).components.length =
      a.components.length + b.components.length ∧
    List.Sorted (fun x y => x.name ≤ y.name)
      (glyphCombine a b).components ∧
    (glyphCombine a b).data.name =
      String.intercalate " " ((glyphCombine a b).components.map
        GlyphData.name) := by
  refine ⟨?_, ?_, ?_, rfl⟩
  · rw [pyGlyphEq_iff_content]
    refine ⟨?_, ?_, hs⟩
    · simp only [glyphCombine]
      rw [names_mergeSort_append_comm]
    · simp only [glyphCombine, PImage.darker, PImage.mk.injEq]
      exact ⟨hm, hsz, List.zipWith_comm_of_comm min min_comm _ _⟩
  · simp [glyphCombine]
  · have hp := @List.sorted_mergeSort GlyphData nameLe nameLe_trans
      nameLe_total (a.components ++ b.components)
    simp only [glyphCombine]
    exact hp.imp (fun h => by simpa [nameLe] using h)

theorem glyphCombine_spec_witness :
    glyphB.data.samples = glyphA.data.samples ∧
      glyphB.data.image.mode = glyphA.data.image.mode ∧
      glyphB.data.image.size = glyphA.data.image.size ∧
      (pyGlyphEq (glyphCombine glyphB glyphA) (glyphCombine glyphA glyphB)
          = true ∧
        (glyphCombine glyphB glyphA).components.length =
          glyphB.components.length + glyphA.components.length ∧
        List.Sorted (fun x y => x.name ≤ y.name)
          (glyphCombine glyphB glyphA).components ∧
        (glyphCombine glyphB glyphA).data.name =
          String.intercalate " " ((glyphCombine glyphB glyphA).components.map
            GlyphData.name)) :=
  ⟨rfl, rfl, rfl, glyphCombine_spec glyphB glyphA rfl rfl rfl⟩

theorem flatMap_range_map {α : Type} (f : ℕ → ℕ → α) (h w : ℕ) :
    (List.range h).flatMap (fun y => (List.range w).map (f y)) =
      (List.range (h * w)).map (fun i => f (i / w) (i % w)) := by
  induction h with
  | zero => simp
  | succ n ih =>
    rw [List.range_succ, List.flatMap_append, ih, Nat.succ_mul,
      List.range_add, List.map_append, List.flatMap_singleton,
      List.map_map]
    congr 1
    refine (List.map_congr_left (fun j hj => ?_)).symm
    rw [List.mem_range] at hj
    have hw : 0 < w := by omega
    simp only [Function.comp]
    rw [Nat.mul_comm n w, Nat.mul_add_div hw, Nat.mul_add_mod,
      Nat.div_eq_of_lt hj, Nat.mod_eq_of_lt hj, Nat.add_zero]

theorem chunkCell_eq (data : List ℕ) (tw sx sy x y : ℕ) :
    chunkCell data tw sx sy x y =
      (List.range (sy * sx)).map (fun k =>
        data.getD ((sx * x + k % sx) + (sy * y + k / sx) * tw * sx) 0) := by
  unfold chunkCell
  rw [List.range'_eq_map_range, List.range'_eq_map_range,
    List.flatMap_map]
  have := flatMap_range_map
    (fun r c => data.getD ((sx * x + c) + (sy * y + r) * tw * sx) 0) sy sx
  rw [← this]
  congr 1
  funext r
  rw [List.map_map]
  rfl

/-- C7: `_chunk` is a deterministic reshape — on data of a raster of width
`target_width * sample_x` whose length is `target_width * sample_x *
sample_y * height`, it produces one block per glyph cell, cells enumerated
row-major across the image, each block holding exactly `sample_x *
sample_y` pixels in row-major order within the cell. -/
theorem chunk_spec (data : List ℕ) (tw sx sy hgt : ℕ)
    (hlen : data.length = tw * sx * sy * hgt) (hpos : 0 < tw * sx * sy) :
    chunk data tw sx sy =
      (List.range (hgt * tw)).map (fun cell =>
        (List.range (sy * sx)).map (fun k =>
          data.getD ((sx * (cell % tw) + k % sx) +
            (sy * (cell / tw) + k / sx) * tw * sx) 0)) := by
  unfold chunk
  have hpos' : 0 < tw * sy * sx := by
    rw [show tw * sy * sx = tw * sx * sy by ring]; exact hpos
  have hh : data.length / (tw * sy * sx) = hgt := by
    rw [hlen, show tw * sx * sy * hgt = tw * sy * sx * hgt by ring,
      Nat.mul_div_cancel_left _ hpos']
  rw [hh]
  simp only [chunkCell_eq]
  exact flatMap_range_map
    (fun y x => (List.range (sy * sx)).map (fun k =>
      data.getD ((sx * x + k % sx) + (sy * y + k / sx) * tw * sx) 0)) hgt tw

theorem chunk_spec_witness :
    chunk chunkExampleData 2 2 2 =
        (List.range (2 * 2)).map (fun cell =>
          (List.range (2 * 2)).map (fun k =>
            chunkExampleData.getD ((2 * (cell % 2) + k % 2) +
              (2 * (cell / 2) + k / 2) * 2 * 2) 0)) ∧
      chunk chunkExampleData 2 2 2 =
        [[0, 0, 0, 0], [255, 255, 255, 255], [128, 128, 128, 128],
          [0, 255, 128, 0]] :=
  ⟨chunk_spec chunkExampleData 2 2 2 2 (by decide) (by decide), by decide⟩

theorem ratTrunc_eq_floor (q : ℚ) (hq : 0 ≤ q) : ratTrunc q = ⌊q⌋ := by
  have hnum : 0 ≤ q.num := Rat.num_nonneg.mpr hq
  have hden : (0 : ℤ) ≤ (q.den : ℤ) := Int.ofNat_nonneg _
  rw [ratTrunc, Int.tdiv_eq_ediv hnum hden]
  conv_rhs => rw [← Rat.num_div_den q]
  rw [Rat.floor_intCast_div_natCast]

unseal Rat.add Rat.mul Rat.inv Rat.sub in
/-- C8 counterexample: a two-glyph pool with samples `(2, 2)` and
fingerprints `[0,0,0,2]` and `[1,1,2,2]` has `value_extrema = (1/2, 3/2)`;
with `rescale_intensity = 1`, `int()` truncation makes the computed window
`(0, 1)`, which is not equal to the extrema — refuting the claim that a
factor of exactly 1 reproduces `value_extrema` exactly. -/
theorem rescale_window_counterexample :
    (([[0, 0, 0, 2], [1, 1, 2, 2]] : List (List ℚ)).map averageValue)
        = [1/2, 3/2] ∧
      valueExtrema [1/2, 3/2] = some (1/2, 3/2) ∧
      rescaleOutRange (1/2, 3/2) 1 = (0, 1) ∧
      ¬(((rescaleOutRange (1/2, 3/2) 1).1 : ℚ) = 1/2 ∧
          ((rescaleOutRange (1/2, 3/2) 1).2 : ℚ) = 3/2) := by
  decide

/-- C8 amended: the output window is the claimed
`[mean - (factor/2)*range, mean + (factor/2)*range]` clamped to `[0,255]`
only after Python `int()` truncation toward zero of each bound; with
factor exactly 1 the window is `(int(min_val), int(max_val))`, which
equals `value_extrema` exactly only when both extrema are integers. -/
theorem rescale_window_amended (minv maxv : ℚ) (h0 : 0 ≤ minv)
    (h1 : minv ≤ maxv) (h2 : maxv ≤ 255) :
    rescaleOutRange (minv, maxv) 1 = (ratTrunc minv, ratTrunc maxv) ∧
      (minv.den = 1 → maxv.den = 1 →
        ((ratTrunc minv : ℚ) = minv ∧ (ratTrunc maxv : ℚ) = maxv)) := by
  have h0' : (0 : ℚ) ≤ maxv := le_trans h0 h1
  constructor
  · have e1 : (minv + maxv) / 2 - 1 / 2 * (maxv - minv) = minv := by ring
    have e2 : (minv + maxv) / 2 + 1 / 2 * (maxv - minv) = maxv := by ring
    unfold rescaleOutRange
    dsimp only
    rw [e1, e2, ratTrunc_eq_floor minv h0, ratTrunc_eq_floor maxv h0']
    have hfl : (0 : ℤ) ≤ ⌊minv⌋ := Int.floor_nonneg.mpr h0
    have hfr : ⌊maxv⌋ ≤ 255 := by
      have h255 : ⌊(255 : ℚ)⌋ = 255 := by norm_num
      calc ⌊maxv⌋ ≤ ⌊(255 : ℚ)⌋ := Int.floor_le_floor h2
        _ = 255 := h255
    rw [max_eq_right hfl, min_eq_right hfr]
  · intro hd1 hd2
    rw [ratTrunc_eq_floor minv h0, ratTrunc_eq_floor maxv h0']
    have hm1 : (minv.num : ℚ) = minv := (Rat.den_eq_one_iff minv).mp hd1
    have hm2 : (maxv.num : ℚ) = maxv := (Rat.den_eq_one_iff maxv).mp hd2
    constructor
    · rw [← hm1, Int.floor_intCast]
    · rw [← hm2, Int.floor_intCast]

unseal Rat.add Rat.mul Rat.inv Rat.sub in
theorem rescale_window_amended_witness :
    (0 : ℚ) ≤ 10 ∧ (10 : ℚ) ≤ 20 ∧ (20 : ℚ) ≤ 255 ∧
      (rescaleOutRange (10, 20) 1 = (ratTrunc 10, ratTrunc 20) ∧
        ((10 : ℚ).den = 1 → (20 : ℚ).den = 1 →
          ((ratTrunc 10 : ℚ) = 10 ∧ (ratTrunc 20 : ℚ) = 20))) ∧
      rescaleOutRange (10, 20) 1 = (10, 20) :=
  ⟨by norm_num, by norm_num, by norm_num,
    rescale_window_amended 10 20 (by norm_num) (by norm_num) (by norm_num),
    by decide⟩

/-! ### Toolbox for the matcher proofs -/

theorem minByFirstAux_mem {α : Type} (key : α → ℚ) (b : α) (l : List α) :
    minByFirstAux key b l ∈ b :: l := by
  induction l generalizing b with
  | nil => simp [minByFirstAux]
  | cons x xs ih =>
    rw [minByFirstAux]
    by_cases hc : key x < key b
    · rw [if_pos hc]
      have h := ih x
      simp at h ⊢
      tauto
    · rw [if_neg hc]
      have h := ih b
      simp at h ⊢
      tauto

theorem minByFirstAux_le {α : Type} (key : α → ℚ) (b : α) (l : List α) :
    key (minByFirstAux key b l) ≤ key b ∧
      ∀ x ∈ l, key (minByFirstAux key b l) ≤ key x := by
  induction l generalizing b with
  | nil => simp [minByFirstAux]
  | cons x xs ih =>
    rw [minByFirstAux]
    by_cases hc : key x < key b
    · rw [if_pos hc]
      obtain ⟨h1, h2⟩ := ih x
      refine ⟨le_trans h1 (le_of_lt hc), fun y hy => ?_⟩
      rcases List.mem_cons.mp hy with rfl | hy
      · exact h1
      · exact h2 y hy
    · rw [if_neg hc]
      obtain ⟨h1, h2⟩ := ih b
      refine ⟨h1, fun y hy => ?_⟩
      rcases List.mem_cons.mp hy with rfl | hy
      · exact le_trans h1 (not_lt.mp hc)
      · exact h2 y hy

theorem argminAux_le (best : ℚ × Nat) (i : Nat) (ds : List ℚ) :
    (argminAux best i ds).1 ≤ best.1 ∧
      ∀ d ∈ ds, (argminAux best i ds).1 ≤ d := by
  induction ds generalizing best i with
  | nil => simp [argminAux]
  | cons d rest ih =>
    rw [argminAux]
    by_cases hc : d < best.1
    · rw [if_pos hc]
      obtain ⟨h1, h2⟩ := ih (d, i) (i + 1)
      refine ⟨le_trans h1 (le_of_lt hc), fun y hy => ?_⟩
      rcases List.mem_cons.mp hy with rfl | hy
      · exact h1
      · exact h2 y hy
    · rw [if_neg hc]
      obtain ⟨h1, h2⟩ := ih best (i + 1)
      refine ⟨h1, fun y hy => ?_⟩
      rcases List.mem_cons.mp hy with rfl | hy
      · exact le_trans h1 (not_lt.mp hc)
      · exact h2 y hy

theorem argminAux_mem (best : ℚ × Nat) (i : Nat) (ds : List ℚ) :
    argminAux best i ds = best ∨
      ∃ j, ds[j]? = some (argminAux best i ds).1 ∧
        (argminAux best i ds).2 = i + j := by
  induction ds generalizing best i with
  | nil => left; rfl
  | cons d rest ih =>
    rw [argminAux]
    by_cases hc : d < best.1
    · rw [if_pos hc]
      rcases ih (d, i) (i + 1) with h | ⟨j, hj1, hj2⟩
      · right
        exact ⟨0, by rw [h]; simp, by rw [h]; simp⟩
      · right
        exact ⟨j + 1, by simpa using hj1, by omega⟩
    · rw [if_neg hc]
      rcases ih best (i + 1) with h | ⟨j, hj1, hj2⟩
      · left; exact h
      · right
        exact ⟨j + 1, by simpa using hj1, by omega⟩

theorem queryTree_isSome (ts : TreeSet) (target : List ℚ)
    (h : ts.glyphSet ≠ []) : ∃ p, queryTree ts target = some p := by
  unfold queryTree
  cases hgs : ts.glyphSet with
  | nil => exact absurd hgs h
  | cons g gs => simp

theorem queryTree_mem (ts : TreeSet) (target : List ℚ) (d : ℚ) (i : Nat)
    (h : queryTree ts target = some (d, i)) :
    ∃ g, ts.glyphSet[i]? = some g ∧ sqDist g.fingerprint target = d := by
  unfold queryTree at h
  cases hgs : ts.glyphSet with
  | nil => rw [hgs] at h; simp at h
  | cons g0 gs =>
    rw [hgs] at h
    simp only [List.map_cons] at h
    injection h with h
    rcases argminAux_mem (sqDist g0.fingerprint target, 0) 1
        (gs.map fun g => sqDist g.fingerprint target) with hm | ⟨j, hj1, hj2⟩
    · rw [hm] at h
      injection h with h1 h2
      subst h1
      refine ⟨g0, ?_, rfl⟩
      rw [← h2]
      simp
    · rw [h] at hj1 hj2
      rw [List.getElem?_map] at hj1
      cases hgj : gs[j]? with
      | none => rw [hgj] at hj1; simp at hj1
      | some gj =>
        rw [hgj] at hj1
        simp only [Option.map_some] at hj1
        injection hj1 with hj1
        have hj1' : sqDist gj.fingerprint target = d := hj1
        have hj2' : i = 1 + j := hj2
        refine ⟨gj, ?_, hj1'⟩
        rw [hj2']
        simpa [Nat.add_comm] using hgj

theorem queryTree_le (ts : TreeSet) (target : List ℚ) (d : ℚ) (i : Nat)
    (h : queryTree ts target = some (d, i)) :
    ∀ g ∈ ts.glyphSet, d ≤ sqDist g.fingerprint target := by
  unfold queryTree at h
  cases hgs : ts.glyphSet with
  | nil => rw [hgs] at h; simp at h
  | cons g0 gs =>
    rw [hgs] at h
    simp only [List.map_cons] at h
    injection h with h
    obtain ⟨h1, h2⟩ := argminAux_le (sqDist g0.fingerprint target, 0) 1
      (gs.map fun g => sqDist g.fingerprint target)
    rw [h] at h1 h2
    intro g hg
    rcases List.mem_cons.mp hg with rfl | hg
    · exact h1
    · exact h2 _ (List.mem_map_of_mem _ hg)

theorem collectNeighbours_isSome (treeSets : List TreeSet) (target : List ℚ)
    (h : ∀ ts ∈ treeSets, ts.glyphSet ≠ []) :
    ∃ ns, collectNeighbours treeSets target = some ns := by
  induction treeSets with
  | nil => exact ⟨[], rfl⟩
  | cons ts rest ih =>
    obtain ⟨p, hp⟩ := queryTree_isSome ts target (h ts (by simp))
    obtain ⟨ns, hns⟩ := ih (fun t ht => h t (by simp [ht]))
    exact ⟨(ts, p) :: ns, by rw [collectNeighbours, hp, hns]⟩

theorem collectNeighbours_length (treeSets : List TreeSet) (target : List ℚ)
    (ns : List (TreeSet × ℚ × Nat))
    (h : collectNeighbours treeSets target = some ns) :
    ns.length = treeSets.length := by
  induction treeSets generalizing ns with
  | nil =>
    rw [collectNeighbours] at h
    injection h with h
    rw [← h]
    rfl
  | cons ts rest ih =>
    rw [collectNeighbours] at h
    cases hq : queryTree ts target with
    | none => rw [hq] at h; exact absurd h (by simp)
    | some di =>
      rw [hq] at h
      cases hr : collectNeighbours rest target with
      | none => rw [hr] at h; exact absurd h (by simp)
      | some ns' =>
        rw [hr] at h
        injection h with h
        rw [← h]
        simp [ih ns' hr]

theorem collectNeighbours_spec (treeSets : List TreeSet) (target : List ℚ)
    (ns : List (TreeSet × ℚ × Nat))
    (h : collectNeighbours treeSets target = some ns) :
    ∀ (k : Nat) (e : TreeSet × ℚ × Nat), ns[k]? = some e →
      treeSets[k]? = some e.1 ∧
      queryTree e.1 target = some (e.2.1, e.2.2) := by
  induction treeSets generalizing ns with
  | nil =>
    rw [collectNeighbours] at h
    injection h with h
    intro k e he
    rw [← h] at he
    simp at he
  | cons ts rest ih =>
    rw [collectNeighbours] at h
    cases hq : queryTree ts target with
    | none => rw [hq] at h; exact absurd h (by simp)
    | some di =>
      rw [hq] at h
      cases hr : collectNeighbours rest target with
      | none => rw [hr] at h; exact absurd h (by simp)
      | some ns' =>
        rw [hr] at h
        injection h with h
        intro k e he
        rw [← h] at he
        cases k with
        | zero =>
          simp only [List.getElem?_cons_zero] at he
          injection he with he
          rw [← he]
          exact ⟨by simp, by rw [hq]⟩
        | succ k' =>
          simp only [List.getElem?_cons_succ] at he
          have := ih ns' hr k' e he
          exact ⟨by simpa using this.1, this.2⟩

theorem collectNeighbours_entry (treeSets : List TreeSet) (target : List ℚ)
    (ns : List (TreeSet × ℚ × Nat))
    (h : collectNeighbours treeSets target = some ns)
    (k : Nat) (ts : TreeSet) (hts : treeSets[k]? = some ts) :
    ∃ e, ns[k]? = some e ∧ e.1 = ts ∧
      queryTree ts target = some (e.2.1, e.2.2) := by
  have hk : k < treeSets.length := by
    by_contra hk
    rw [List.getElem?_eq_none (by omega)] at hts
    exact absurd hts (by simp)
  have hk' : k < ns.length := by
    rw [collectNeighbours_length treeSets target ns h]
    exact hk
  obtain ⟨e, he⟩ : ∃ e, ns[k]? = some e := by
    rw [List.getElem?_eq_getElem hk']
    exact ⟨_, rfl⟩
  obtain ⟨h1, h2⟩ := collectNeighbours_spec treeSets target ns h k e he
  rw [hts] at h1
  injection h1 with h1
  exact ⟨e, he, h1.symm, by rw [← h1] at h2; exact h2⟩

theorem stacksOk_getElem (k : Nat) (l : List TreeSet)
    (h : stacksOk k l = true) :
    ∀ i ts, l[i]? = some ts → ts.stackSize = k + i := by
  induction l generalizing k with
  | nil => intro i ts h'; simp at h'
  | cons t rest ih =>
    rw [stacksOk, Bool.and_eq_true, decide_eq_true_eq] at h
    intro i ts h'
    cases i with
    | zero =>
      simp only [List.getElem?_cons_zero] at h'
      injection h' with h'
      rw [← h']
      simpa using h.1
    | succ i' =>
      simp only [List.getElem?_cons_succ] at h'
      have := ih (k + 1) h.2 i' ts h'
      omega

theorem mem_take_exists_getElem {α : Type} (l : List α) (m : Nat) (x : α)
    (hx : x ∈ l.take m) : ∃ i, i < m ∧ l[i]? = some x := by
  rw [List.mem_take_iff_getElem] at hx
  obtain ⟨i, hi, hix⟩ := hx
  refine ⟨i, ?_, ?_⟩
  · omega
  · rw [List.getElem?_eq_getElem (by omega : i < l.length)]
    exact congrArg some hix

theorem cutoffTest_eq_false_of (a b : ℚ) (k : ℤ) (r c : ℚ) (hba : b ≤ a)
    (hc : c ≤ 0) (hk : 0 < k) (hr : 0 ≤ r) :
    cutoffTest a b k r c = false := by
  unfold cutoffTest
  by_cases h1 : k = 0 ∨ r ≤ 0
  · rw [if_pos h1]
    simpa using not_lt.mpr hc
  · rw [if_neg h1, if_pos hk]
    unfold sqrtLtAddSqrt
    rcases lt_or_eq_of_le hc with hc0 | hc0
    · rw [if_neg (not_le.mpr hc0)]
      have hm : b - a - c ^ 2 * ((k : ℚ) ^ 2 * r) ≤ 0 := by
        have h2 : 0 ≤ c ^ 2 * ((k : ℚ) ^ 2 * r) := by positivity
        linarith
      simp only [Bool.and_eq_false_iff, decide_eq_false_iff_not, not_lt]
      left
      exact hm
    · rw [hc0]
      rw [if_pos le_rfl]
      have hl : 0 ≤ a - b - (0 : ℚ) ^ 2 * ((k : ℚ) ^ 2 * r) := by
        have : (0 : ℚ) ^ 2 * ((k : ℚ) ^ 2 * r) = 0 := by ring
        linarith [this]
      simp only [Bool.or_eq_false_iff, decide_eq_false_iff_not, not_lt]
      constructor
      · exact hl
      · have : (4 : ℚ) * 0 ^ 2 * (b * ((k : ℚ) ^ 2 * r)) = 0 := by ring
        rw [this]
        positivity

/-- C2 amended: with `cutoff = 0` and no background glyph, matching the
fingerprint of a glyph `g` present in some tree set returns a glyph at
squared distance `0`; it returns `g` itself provided no other glyph of any
tree set sits at squared distance `0` from `g`'s fingerprint (tree sets
nonempty, stack sizes ascending from 1 and mean-square statistics
nonnegative, as `_calculate_trees` guarantees). -/
theorem self_match_spec (treeSets : List TreeSet) (g : FGlyph)
    (hne : ∀ ts ∈ treeSets, ts.glyphSet ≠ [])
    (hstacks : stacksOk 1 treeSets = true)
    (hmsfc : ∀ ts ∈ treeSets, 0 ≤ ts.meanSquareFromCentroid)
    (hg : ∃ ts ∈ treeSets, g ∈ ts.glyphSet)
    (huniq : ∀ ts ∈ treeSets, ∀ x ∈ ts.glyphSet,
      sqDist x.fingerprint g.fingerprint = 0 → x = g) :
    findClosestGlyphNoBg treeSets g.fingerprint 0 = some (g, 0) := by
  obtain ⟨ns, hcn⟩ := collectNeighbours_isSome treeSets g.fingerprint hne
  obtain ⟨ts0, hts0mem, hgmem⟩ := hg
  obtain ⟨k0, hk0⟩ := List.mem_iff_getElem?.mp hts0mem
  obtain ⟨e0, he0, he0tree, he0q⟩ :=
    collectNeighbours_entry treeSets g.fingerprint ns hcn k0 ts0 hk0
  have he0le : e0.2.1 ≤ 0 := by
    have := queryTree_le ts0 g.fingerprint e0.2.1 e0.2.2 he0q g hgmem
    rwa [sqDist_self] at this
  have he0mem : e0 ∈ ns := List.mem_iff_getElem?.mpr ⟨k0, he0⟩
  cases hns : ns with
  | nil => rw [hns] at he0mem; simp at he0mem
  | cons n0 nrest =>
    rw [hns] at he0mem
    set best := minByFirstAux (fun n : TreeSet × ℚ × Nat => n.2.1) n0 nrest
      with hbest
    have hbmemns : best ∈ ns := by
      rw [hns]
      exact minByFirstAux_mem _ n0 nrest
    have hble := minByFirstAux_le (fun n : TreeSet × ℚ × Nat => n.2.1)
      n0 nrest
    have hbestle : ∀ x ∈ ns, best.2.1 ≤ x.2.1 := by
      intro x hx
      rw [hns] at hx
      rcases List.mem_cons.mp hx with rfl | hx
      · exact hble.1
      · exact hble.2 x hx
    obtain ⟨kb, hkb⟩ := List.mem_iff_getElem?.mp hbmemns
    obtain ⟨hkbtree, hkbq⟩ :=
      collectNeighbours_spec treeSets g.fingerprint ns hcn kb best hkb
    obtain ⟨gb, hgb1, hgb2⟩ :=
      queryTree_mem best.1 g.fingerprint best.2.1 best.2.2 hkbq
    have hbnn : 0 ≤ best.2.1 := by rw [← hgb2]; exact sqDist_nonneg _ _
    have hbest0 : best.2.1 = 0 :=
      le_antisymm (le_trans (hbestle e0 (hns ▸ he0mem)) he0le) hbnn
    have hgbmem : gb ∈ best.1.glyphSet :=
      List.mem_iff_getElem?.mpr ⟨best.2.2, hgb1⟩
    have hbtreemem : best.1 ∈ treeSets := List.mem_iff_getElem?.mpr ⟨kb, hkbtree⟩
    have hgbg : gb = g :=
      huniq best.1 hbtreemem gb hgbmem (by rw [hgb2, hbest0])
    have hbstack : best.1.stackSize = kb + 1 := by
      have := stacksOk_getElem 1 treeSets hstacks kb best.1 hkbtree
      omega
    have hloop : ∀ x ∈ ns.take (best.1.stackSize - 1),
        cutoffHit g.fingerprint best.1.stackSize best.2.1 0 x = false := by
      intro x hx
      obtain ⟨ix, hixlt, hix⟩ := mem_take_exists_getElem ns _ x hx
      obtain ⟨hxtree, hxq⟩ :=
        collectNeighbours_spec treeSets g.fingerprint ns hcn ix x hix
      obtain ⟨gx, hgx1, hgx2⟩ :=
        queryTree_mem x.1 g.fingerprint x.2.1 x.2.2 hxq
      have hxstack : x.1.stackSize = ix + 1 := by
        have := stacksOk_getElem 1 treeSets hstacks ix x.1 hxtree
        omega
      unfold cutoffHit
      apply cutoffTest_eq_false_of
      · rw [hbest0, ← hgx2]
        exact sqDist_nonneg _ _
      · exact le_rfl
      · rw [hxstack, hbstack]
        push_cast
        omega
      · exact add_nonneg (sqDist_nonneg _ _)
          (hmsfc x.1 (List.mem_iff_getElem?.mpr ⟨ix, hxtree⟩))
    have hfind : (ns.take (best.1.stackSize - 1)).find?
        (cutoffHit g.fingerprint best.1.stackSize best.2.1 0) = none :=
      List.find?_eq_none.mpr (fun x hx => by simp [hloop x hx])
    have step1 : findClosestGlyphNoBg treeSets g.fingerprint 0 =
        Option.bind best.1.glyphSet[best.2.2]? (fun bestGlyph0 =>
          match (ns.take (best.1.stackSize - 1)).find?
              (cutoffHit g.fingerprint best.1.stackSize best.2.1 0) with
          | some n => (n.1.glyphSet[n.2.2]?).map (fun x => (x, n.2.1))
          | none => some (bestGlyph0, best.2.1)) := by
      unfold findClosestGlyphNoBg findClosestGlyphCore
      rw [hcn, hns]
      rfl
    rw [step1, hgb1, hfind]
    simp [hgbg, hbest0]

unseal Rat.add Rat.mul Rat.inv Rat.sub in
theorem self_match_spec_witness :
    (∀ ts ∈ treeSetsW2, ts.glyphSet ≠ []) ∧
      stacksOk 1 treeSetsW2 = true ∧
      (∀ ts ∈ treeSetsW2, 0 ≤ ts.meanSquareFromCentroid) ∧
      (∃ ts ∈ treeSetsW2, dFgA ∈ ts.glyphSet) ∧
      (∀ ts ∈ treeSetsW2, ∀ x ∈ ts.glyphSet,
        sqDist x.fingerprint dFgA.fingerprint = 0 → x = dFgA) ∧
      findClosestGlyphNoBg treeSetsW2 dFgA.fingerprint 0 = some (dFgA, 0) :=
  ⟨by decide, by decide, by decide, by decide, by decide,
    self_match_spec treeSetsW2 dFgA (by decide) (by decide) (by decide)
      (by decide) (by decide)⟩

unseal Rat.add Rat.mul Rat.inv Rat.sub in
/-- C2 counterexample: in the degenerate pool `{a, b}` with `a` fully dark,
the depth-2 composite `a b` duplicates `a`'s fingerprint; matching the
composite's own fingerprint with `cutoff = 0` and no background returns
the depth-1 glyph `a` (Python `min` keeps the first of tied tree sets),
not the composite itself — refuting exact self-match for composite glyphs,
though the returned squared distance is still `0`. -/
theorem self_match_counterexample :
    dFgAB ∈ (treeSetsC2.getD 1 (mkTreeSet [] 0)).glyphSet ∧
      (treeSetsC2.getD 1 (mkTreeSet [] 0)).stackSize = 2 ∧
      findClosestGlyphNoBg treeSetsC2 dFgAB.fingerprint 0 =
        some (dFgA, 0) ∧
      dFgA ≠ dFgAB := by
  refine ⟨by decide, by decide, by decide, by decide⟩

/-- C1 amended: on a partially transparent block, when the computed
background distance beats every glyph distance, the background glyph
becomes the provisional best match; and when additionally `cutoff ≤ 0`
(so the simplicity-bias loop can never fire), the call returns the
background glyph with the background distance.  (For permissive
`cutoff > 0` the loop can still replace the background glyph — see the
counterexample.) -/
theorem background_preempt_spec (treeSets : List TreeSet)
    (target : List (ℚ × ℚ)) (cutoff : ℚ) (bg : FGlyph)
    (hnet : treeSets ≠ [])
    (hmix1 : target.any (fun p => decide (p.2 < 255)) = true)
    (hmix2 : target.all (fun p => decide (p.2 < 255)) = false)
    (hne : ∀ ts ∈ treeSets, ts.glyphSet ≠ [])
    (hstacks : stacksOk 1 treeSets = true)
    (hmsfc : ∀ ts ∈ treeSets, 0 ≤ ts.meanSquareFromCentroid)
    (hcut : cutoff ≤ 0)
    (hbg : ∀ ts ∈ treeSets, ∀ x ∈ ts.glyphSet,
      sqDist bg.fingerprint (blendTarget bg.fingerprint target) <
        sqDist x.fingerprint (blendTarget bg.fingerprint target)) :
    findClosestGlyph treeSets target cutoff bg =
      some (bg, some (sqDist bg.fingerprint
        (blendTarget bg.fingerprint target))) := by
  set blended := blendTarget bg.fingerprint target with hblend
  set bgSq := sqDist bg.fingerprint blended with hbgsq
  obtain ⟨ns, hcn⟩ := collectNeighbours_isSome treeSets blended hne
  have hlen := collectNeighbours_length treeSets blended ns hcn
  cases hns : ns with
  | nil =>
    rw [hns] at hlen
    cases htr : treeSets with
    | nil => exact absurd htr hnet
    | cons t ts' => rw [htr] at hlen; simp at hlen
  | cons n0 nrest =>
    set best := minByFirstAux (fun n : TreeSet × ℚ × Nat => n.2.1) n0 nrest
      with hbest
    have hbmemns : best ∈ ns := by
      rw [hns]
      exact minByFirstAux_mem _ n0 nrest
    obtain ⟨kb, hkb⟩ := List.mem_iff_getElem?.mp hbmemns
    obtain ⟨hkbtree, hkbq⟩ :=
      collectNeighbours_spec treeSets blended ns hcn kb best hkb
    obtain ⟨gb, hgb1, hgb2⟩ :=
      queryTree_mem best.1 blended best.2.1 best.2.2 hkbq
    have hgbmem : gb ∈ best.1.glyphSet :=
      List.mem_iff_getElem?.mpr ⟨best.2.2, hgb1⟩
    have hbtreemem : best.1 ∈ treeSets :=
      List.mem_iff_getElem?.mpr ⟨kb, hkbtree⟩
    have hbglt : bgSq < best.2.1 := by
      rw [← hgb2]
      exact hbg best.1 hbtreemem gb hgbmem
    have hbstack : best.1.stackSize = kb + 1 := by
      have := stacksOk_getElem 1 treeSets hstacks kb best.1 hkbtree
      omega
    have hloop : ∀ x ∈ ns.take (best.1.stackSize - 1),
        cutoffHit blended best.1.stackSize bgSq cutoff x = false := by
      intro x hx
      obtain ⟨ix, hixlt, hix⟩ := mem_take_exists_getElem ns _ x hx
      obtain ⟨hxtree, hxq⟩ :=
        collectNeighbours_spec treeSets blended ns hcn ix x hix
      obtain ⟨gx, hgx1, hgx2⟩ := queryTree_mem x.1 blended x.2.1 x.2.2 hxq
      have hxstack : x.1.stackSize = ix + 1 := by
        have := stacksOk_getElem 1 treeSets hstacks ix x.1 hxtree
        omega
      unfold cutoffHit
      apply cutoffTest_eq_false_of
      · rw [← hgx2]
        exact le_of_lt (hbg x.1 (List.mem_iff_getElem?.mpr ⟨ix, hxtree⟩) gx
          (List.mem_iff_getElem?.mpr ⟨x.2.2, hgx1⟩))
      · exact hcut
      · rw [hxstack, hbstack]
        push_cast
        omega
      · exact add_nonneg (sqDist_nonneg _ _)
          (hmsfc x.1 (List.mem_iff_getElem?.mpr ⟨ix, hxtree⟩))
    have hfind : (ns.take (best.1.stackSize - 1)).find?
        (cutoffHit blended best.1.stackSize bgSq cutoff) = none :=
      List.find?_eq_none.mpr (fun x hx => by simp [hloop x hx])
    have hcore : findClosestGlyphCore treeSets blended cutoff (some bgSq)
        (some bg) =
        Option.bind best.1.glyphSet[best.2.2]? (fun bestGlyph0 =>
          match (ns.take (best.1.stackSize - 1)).find?
              (cutoffHit blended best.1.stackSize
                (if bgSq < best.2.1 then (bg, bgSq)
                  else (bestGlyph0, best.2.1)).2 cutoff) with
          | some n => (n.1.glyphSet[n.2.2]?).map (fun x => (x, n.2.1))
          | none => some (if bgSq < best.2.1 then (bg, bgSq)
              else (bestGlyph0, best.2.1))) := by
      unfold findClosestGlyphCore
      rw [hcn, hns]
      rfl
    have hcore2 : findClosestGlyphCore treeSets blended cutoff (some bgSq)
        (some bg) = some (bg, bgSq) := by
      rw [hcore, hgb1]
      simp only [Option.bind_some, if_pos hbglt]
      rw [hfind]
      rfl
    have houter : findClosestGlyph treeSets target cutoff bg =
        (findClosestGlyphCore treeSets blended cutoff (some bgSq)
          (some bg)).map (fun p => (p.1, some p.2)) := by
      unfold findClosestGlyph
      rw [hmix2, hmix1]
      rfl
    rw [houter, hcore2]
    rfl

unseal Rat.add Rat.mul Rat.inv Rat.sub in
theorem background_preempt_spec_witness :
    treeSetsW1 ≠ [] ∧
      targetW1.any (fun p => decide (p.2 < 255)) = true ∧
      targetW1.all (fun p => decide (p.2 < 255)) = false ∧
      (∀ ts ∈ treeSetsW1, ts.glyphSet ≠ []) ∧
      stacksOk 1 treeSetsW1 = true ∧
      (∀ ts ∈ treeSetsW1, 0 ≤ ts.meanSquareFromCentroid) ∧
      (0 : ℚ) ≤ 0 ∧
      (∀ ts ∈ treeSetsW1, ∀ x ∈ ts.glyphSet,
        sqDist mBgW.fingerprint (blendTarget mBgW.fingerprint targetW1) <
          sqDist x.fingerprint (blendTarget mBgW.fingerprint targetW1)) ∧
      findClosestGlyph treeSetsW1 targetW1 0 mBgW =
        some (mBgW, some (sqDist mBgW.fingerprint
          (blendTarget mBgW.fingerprint targetW1))) :=
  ⟨by decide, by decide, by decide, by decide, by decide, by decide,
    le_rfl, by decide,
    background_preempt_spec treeSetsW1 targetW1 0 mBgW (by decide)
      (by decide) (by decide) (by decide) (by decide) (by decide) le_rfl
      (by decide)⟩

unseal Rat.add Rat.mul Rat.inv Rat.sub in
/-- C1 counterexample: a partially transparent block whose background
distance (squared `16`) strictly beats the global nearest-neighbour
distance (squared `25`, a depth-2 glyph), so the background glyph becomes
the provisional best — yet with `cutoff = 1` the simplicity-bias loop
replaces it with the depth-1 glyph `a` (squared distance `2125`), so the
returned glyph is not the background glyph. -/
theorem background_replaced_counterexample :
    targetC1.any (fun p => decide (p.2 < 255)) = true ∧
      targetC1.all (fun p => decide (p.2 < 255)) = false ∧
      stacksOk 1 treeSetsC1 = true ∧
      (∀ ts ∈ treeSetsC1, ∀ x ∈ ts.glyphSet,
        sqDist mBg.fingerprint (blendTarget mBg.fingerprint targetC1) <
          sqDist x.fingerprint (blendTarget mBg.fingerprint targetC1)) ∧
      findClosestGlyph treeSetsC1 targetC1 1 mBg =
        some (mFgA, some 2125) ∧
      mFgA ≠ mBg := by
  refine ⟨by decide, by decide, by decide, by decide, by decide, by decide⟩

/-! ### Exactness of the cutoff decision procedure -/

theorem lin_lt_mul_sqrt_iff (l u s : ℚ) (hu : 0 ≤ u) (hs : 0 ≤ s) :
    ((l : ℝ) < (u : ℝ) * Real.sqrt (s : ℝ)) ↔ (l < 0 ∨ l ^ 2 < u ^ 2 * s) := by
  have hsR : (0 : ℝ) ≤ (s : ℝ) := by exact_mod_cast hs
  have huR : (0 : ℝ) ≤ (u : ℝ) := by exact_mod_cast hu
  have hS : 0 ≤ Real.sqrt (s : ℝ) := Real.sqrt_nonneg _
  have hUS : 0 ≤ (u : ℝ) * Real.sqrt (s : ℝ) := mul_nonneg huR hS
  constructor
  · intro h
    by_cases hl : l < 0
    · exact Or.inl hl
    · right
      have hlR : (0 : ℝ) ≤ (l : ℝ) := by exact_mod_cast not_lt.mp hl
      have h2 : ((l : ℝ)) ^ 2 < ((u : ℝ) * Real.sqrt (s : ℝ)) ^ 2 :=
        pow_lt_pow_left₀ h hlR (by norm_num)
      rw [mul_pow, Real.sq_sqrt hsR] at h2
      exact_mod_cast h2
  · intro h
    rcases h with hl | h2
    · have : (l : ℝ) < 0 := by exact_mod_cast hl
      exact lt_of_lt_of_le this hUS
    · by_cases hl : l < 0
      · have : (l : ℝ) < 0 := by exact_mod_cast hl
        exact lt_of_lt_of_le this hUS
      · have h3 : ((l : ℝ)) ^ 2 < ((u : ℝ) * Real.sqrt (s : ℝ)) ^ 2 := by
          rw [mul_pow, Real.sq_sqrt hsR]
          exact_mod_cast h2
        exact lt_of_pow_lt_pow_left₀ 2 hUS h3

theorem mul_sqrt_lt_lin_iff (m u s : ℚ) (hu : 0 ≤ u) (hs : 0 ≤ s) :
    ((u : ℝ) * Real.sqrt (s : ℝ) < (m : ℝ)) ↔ (0 < m ∧ u ^ 2 * s < m ^ 2) := by
  have hsR : (0 : ℝ) ≤ (s : ℝ) := by exact_mod_cast hs
  have huR : (0 : ℝ) ≤ (u : ℝ) := by exact_mod_cast hu
  have hUS : 0 ≤ (u : ℝ) * Real.sqrt (s : ℝ) :=
    mul_nonneg huR (Real.sqrt_nonneg _)
  constructor
  · intro h
    have hm : (0 : ℝ) < (m : ℝ) := lt_of_le_of_lt hUS h
    refine ⟨by exact_mod_cast hm, ?_⟩
    have h2 : ((u : ℝ) * Real.sqrt (s : ℝ)) ^ 2 < ((m : ℝ)) ^ 2 :=
      pow_lt_pow_left₀ h hUS (by norm_num)
    rw [mul_pow, Real.sq_sqrt hsR] at h2
    exact_mod_cast h2
  · rintro ⟨hm, h2⟩
    have hmR : (0 : ℝ) ≤ (m : ℝ) := by
      have : (0 : ℝ) < (m : ℝ) := by exact_mod_cast hm
      exact le_of_lt this
    have h3 : ((u : ℝ) * Real.sqrt (s : ℝ)) ^ 2 < ((m : ℝ)) ^ 2 := by
      rw [mul_pow, Real.sq_sqrt hsR]
      exact_mod_cast h2
    exact lt_of_pow_lt_pow_left₀ 2 hmR h3

theorem sqrtLtAddSqrt_eq_true_iff (a b t r : ℚ) (ha : 0 ≤ a) (hb : 0 ≤ b)
    (hr : 0 ≤ r) :
    sqrtLtAddSqrt a b t r = true ↔
      Real.sqrt (a : ℝ) < Real.sqrt (b : ℝ) + (t : ℝ) * Real.sqrt (r : ℝ) := by
  have haR : (0 : ℝ) ≤ (a : ℝ) := by exact_mod_cast ha
  have hbR : (0 : ℝ) ≤ (b : ℝ) := by exact_mod_cast hb
  have hrR : (0 : ℝ) ≤ (r : ℝ) := by exact_mod_cast hr
  unfold sqrtLtAddSqrt
  by_cases ht : 0 ≤ t
  · rw [if_pos ht]
    have htR : (0 : ℝ) ≤ (t : ℝ) := by exact_mod_cast ht
    have hYnn : 0 ≤ Real.sqrt (b : ℝ) + (t : ℝ) * Real.sqrt (r : ℝ) :=
      add_nonneg (Real.sqrt_nonneg _) (mul_nonneg htR (Real.sqrt_nonneg _))
    have hbr : Real.sqrt ((b * r : ℚ) : ℝ) =
        Real.sqrt (b : ℝ) * Real.sqrt (r : ℝ) := by
      push_cast
      exact Real.sqrt_mul hbR _
    have hY2 : (Real.sqrt (b : ℝ) + (t : ℝ) * Real.sqrt (r : ℝ)) ^ 2 =
        (b : ℝ) + (t : ℝ) ^ 2 * (r : ℝ) +
          2 * (t : ℝ) * Real.sqrt ((b * r : ℚ) : ℝ) := by
      rw [add_sq, Real.sq_sqrt hbR, mul_pow, Real.sq_sqrt hrR, hbr]
      ring
    have hmain : (Real.sqrt (a : ℝ) <
        Real.sqrt (b : ℝ) + (t : ℝ) * Real.sqrt (r : ℝ)) ↔
        (a : ℝ) < (Real.sqrt (b : ℝ) + (t : ℝ) * Real.sqrt (r : ℝ)) ^ 2 := by
      constructor
      · intro h
        have h2 : Real.sqrt (a : ℝ) ^ 2 <
            (Real.sqrt (b : ℝ) + (t : ℝ) * Real.sqrt (r : ℝ)) ^ 2 :=
          pow_lt_pow_left₀ h (Real.sqrt_nonneg _) (by norm_num)
        rwa [Real.sq_sqrt haR] at h2
      · intro h
        have h2 := Real.sqrt_lt_sqrt haR h
        rwa [Real.sqrt_sq hYnn] at h2
    rw [hmain, hY2]
    have hiff2 : ((a : ℝ) < (b : ℝ) + (t : ℝ) ^ 2 * (r : ℝ) +
          2 * (t : ℝ) * Real.sqrt ((b * r : ℚ) : ℝ)) ↔
        (((a - b - t ^ 2 * r : ℚ)) : ℝ) <
          ((2 * t : ℚ) : ℝ) * Real.sqrt ((b * r : ℚ) : ℝ) := by
      push_cast
      constructor <;> intro h <;> linarith
    rw [hiff2, lin_lt_mul_sqrt_iff (a - b - t ^ 2 * r) (2 * t) (b * r)
      (by positivity) (mul_nonneg hb hr)]
    rw [Bool.or_eq_true, decide_eq_true_eq, decide_eq_true_eq]
    rw [show (2 * t) ^ 2 * (b * r) = 4 * t ^ 2 * (b * r) by ring]
  · rw [if_neg ht]
    have htneg : t < 0 := not_le.mp ht
    have htR : (t : ℝ) < 0 := by exact_mod_cast htneg
    have hXnn : 0 ≤ Real.sqrt (a : ℝ) + (-(t : ℝ)) * Real.sqrt (r : ℝ) :=
      add_nonneg (Real.sqrt_nonneg _)
        (mul_nonneg (by linarith) (Real.sqrt_nonneg _))
    have har : Real.sqrt ((a * r : ℚ) : ℝ) =
        Real.sqrt (a : ℝ) * Real.sqrt (r : ℝ) := by
      push_cast
      exact Real.sqrt_mul haR _
    have hstep1 : (Real.sqrt (a : ℝ) <
        Real.sqrt (b : ℝ) + (t : ℝ) * Real.sqrt (r : ℝ)) ↔
        (Real.sqrt (a : ℝ) + (-(t : ℝ)) * Real.sqrt (r : ℝ) <
          Real.sqrt (b : ℝ)) := by
      constructor <;> intro h <;> linarith
    have hX2 : (Real.sqrt (a : ℝ) + (-(t : ℝ)) * Real.sqrt (r : ℝ)) ^ 2 =
        (a : ℝ) + (t : ℝ) ^ 2 * (r : ℝ) +
          2 * (-(t : ℝ)) * Real.sqrt ((a * r : ℚ) : ℝ) := by
      rw [add_sq, Real.sq_sqrt haR, mul_pow, Real.sq_sqrt hrR, har]
      ring
    have hstep2 : (Real.sqrt (a : ℝ) + (-(t : ℝ)) * Real.sqrt (r : ℝ) <
        Real.sqrt (b : ℝ)) ↔
        (Real.sqrt (a : ℝ) + (-(t : ℝ)) * Real.sqrt (r : ℝ)) ^ 2 < (b : ℝ) := by
      constructor
      · intro h
        have h2 : (Real.sqrt (a : ℝ) + (-(t : ℝ)) * Real.sqrt (r : ℝ)) ^ 2 <
            Real.sqrt (b : ℝ) ^ 2 :=
          pow_lt_pow_left₀ h hXnn (by norm_num)
        rwa [Real.sq_sqrt hbR] at h2
      · intro h
        have h2 := Real.sqrt_lt_sqrt (by positivity) h
        rwa [Real.sqrt_sq hXnn] at h2
    have hstep3 : ((Real.sqrt (a : ℝ) + (-(t : ℝ)) * Real.sqrt (r : ℝ)) ^ 2
          < (b : ℝ)) ↔
        (((2 * (-t) : ℚ)) : ℝ) * Real.sqrt ((a * r : ℚ) : ℝ) <
          (((b - a - t ^ 2 * r : ℚ)) : ℝ) := by
      rw [hX2]
      push_cast
      constructor <;> intro h <;> linarith
    rw [hstep1, hstep2, hstep3, mul_sqrt_lt_lin_iff (b - a - t ^ 2 * r)
      (2 * (-t)) (a * r) (by linarith) (mul_nonneg ha hr)]
    rw [Bool.and_eq_true, decide_eq_true_eq, decide_eq_true_eq]
    rw [show (2 * (-t)) ^ 2 * (a * r) = 4 * t ^ 2 * (a * r) by ring]

theorem addSqrtLtSqrt_eq_true_iff (b t r a : ℚ) (ha : 0 ≤ a) (hb : 0 ≤ b)
    (hr : 0 ≤ r) :
    addSqrtLtSqrt b t r a = true ↔
      Real.sqrt (b : ℝ) + (t : ℝ) * Real.sqrt (r : ℝ) < Real.sqrt (a : ℝ) := by
  have haR : (0 : ℝ) ≤ (a : ℝ) := by exact_mod_cast ha
  have hbR : (0 : ℝ) ≤ (b : ℝ) := by exact_mod_cast hb
  have hrR : (0 : ℝ) ≤ (r : ℝ) := by exact_mod_cast hr
  unfold addSqrtLtSqrt
  by_cases ht : t ≤ 0
  · rw [if_pos ht]
    rw [sqrtLtAddSqrt_eq_true_iff b a (-t) r hb ha hr]
    push_cast
    constructor <;> intro h <;> linarith
  · rw [if_neg ht]
    have htpos : 0 < t := not_le.mp ht
    have htR : (0 : ℝ) < (t : ℝ) := by exact_mod_cast htpos
    have hXnn : 0 ≤ Real.sqrt (b : ℝ) + (t : ℝ) * Real.sqrt (r : ℝ) :=
      add_nonneg (Real.sqrt_nonneg _)
        (mul_nonneg (le_of_lt htR) (Real.sqrt_nonneg _))
    have hbr : Real.sqrt ((b * r : ℚ) : ℝ) =
        Real.sqrt (b : ℝ) * Real.sqrt (r : ℝ) := by
      push_cast
      exact Real.sqrt_mul hbR _
    have hX2 : (Real.sqrt (b : ℝ) + (t : ℝ) * Real.sqrt (r : ℝ)) ^ 2 =
        (b : ℝ) + (t : ℝ) ^ 2 * (r : ℝ) +
          2 * (t : ℝ) * Real.sqrt ((b * r : ℚ) : ℝ) := by
      rw [add_sq, Real.sq_sqrt hbR, mul_pow, Real.sq_sqrt hrR, hbr]
      ring
    have hmain : (Real.sqrt (b : ℝ) + (t : ℝ) * Real.sqrt (r : ℝ) <
        Real.sqrt (a : ℝ)) ↔
        (Real.sqrt (b : ℝ) + (t : ℝ) * Real.sqrt (r : ℝ)) ^ 2 < (a : ℝ) := by
      constructor
      · intro h
        have h2 : (Real.sqrt (b : ℝ) + (t : ℝ) * Real.sqrt (r : ℝ)) ^ 2 <
            Real.sqrt (a : ℝ) ^ 2 :=
          pow_lt_pow_left₀ h hXnn (by norm_num)
        rwa [Real.sq_sqrt haR] at h2
      · intro h
        have h2 := Real.sqrt_lt_sqrt (by positivity) h
        rwa [Real.sqrt_sq hXnn] at h2
    have hstep : ((Real.sqrt (b : ℝ) + (t : ℝ) * Real.sqrt (r : ℝ)) ^ 2
          < (a : ℝ)) ↔
        (((2 * t : ℚ)) : ℝ) * Real.sqrt ((b * r : ℚ) : ℝ) <
          (((a - b - t ^ 2 * r : ℚ)) : ℝ) := by
      rw [hX2]
      push_cast
      constructor <;> intro h <;> linarith
    rw [hmain, hstep, mul_sqrt_lt_lin_iff (a - b - t ^ 2 * r) (2 * t) (b * r)
      (by linarith) (mul_nonneg hb hr)]
    rw [Bool.and_eq_true, decide_eq_true_eq, decide_eq_true_eq]
    rw [show (2 * t) ^ 2 * (b * r) = 4 * t ^ 2 * (b * r) by ring]

/-- The boolean `cutoffTest` decides exactly the real-number comparison
`(√a - √b) / (k·√r) < c` performed by the source's cutoff loop (with the
convention `x / 0 = 0` for a vanishing denominator, matching how the
comparison can never fire there for any `cutoff > 0` exactly as a NaN or
infinite float comparison never fires for the source). -/
theorem cutoffTest_eq_true_iff (a b : ℚ) (k : ℤ) (r c : ℚ) (ha : 0 ≤ a)
    (hb : 0 ≤ b) :
    cutoffTest a b k r c = true ↔
      (Real.sqrt (a : ℝ) - Real.sqrt (b : ℝ)) /
          ((k : ℝ) * Real.sqrt (r : ℝ)) < (c : ℝ) := by
  unfold cutoffTest
  by_cases h1 : k = 0 ∨ r ≤ 0
  · rw [if_pos h1]
    have hden : (k : ℝ) * Real.sqrt (r : ℝ) = 0 := by
      rcases h1 with h | h
      · rw [h]
        push_cast
        ring
      · rw [Real.sqrt_eq_zero'.mpr (by exact_mod_cast h)]
        ring
    rw [hden, div_zero, decide_eq_true_eq]
    exact ⟨fun h => by exact_mod_cast h, fun h => by exact_mod_cast h⟩
  · push_neg at h1
    obtain ⟨hk0, hrpos⟩ := h1
    have hrR : (0 : ℝ) < (r : ℝ) := by exact_mod_cast hrpos
    have hsr : 0 < Real.sqrt (r : ℝ) := Real.sqrt_pos.mpr hrR
    rw [if_neg (by push_neg; exact ⟨hk0, hrpos⟩)]
    by_cases hk : 0 < k
    · rw [if_pos hk]
      have hkR : (0 : ℝ) < (k : ℝ) := by exact_mod_cast hk
      have hden : 0 < (k : ℝ) * Real.sqrt (r : ℝ) := mul_pos hkR hsr
      rw [div_lt_iff hden]
      have hk2r : Real.sqrt (((k : ℚ) ^ 2 * r : ℚ) : ℝ) =
          (k : ℝ) * Real.sqrt (r : ℝ) := by
        push_cast
        rw [Real.sqrt_mul (by positivity), Real.sqrt_sq (le_of_lt hkR)]
      rw [sqrtLtAddSqrt_eq_true_iff a b c ((k : ℚ) ^ 2 * r) ha hb
        (by positivity), hk2r]
      constructor <;> intro h <;> nlinarith [h]
    · have hkneg : k < 0 := by omega
      rw [if_neg hk]
      have hkR : (k : ℝ) < 0 := by exact_mod_cast hkneg
      have hden : (k : ℝ) * Real.sqrt (r : ℝ) < 0 :=
        mul_neg_of_neg_of_pos hkR hsr
      rw [div_lt_iff_of_neg hden]
      have hk2r : Real.sqrt (((k : ℚ) ^ 2 * r : ℚ) : ℝ) =
          -(k : ℝ) * Real.sqrt (r : ℝ) := by
        push_cast
        rw [Real.sqrt_mul (by positivity), Real.sqrt_sq_eq_abs,
          abs_of_neg hkR]
      rw [addSqrtLtSqrt_eq_true_iff b (-c) ((k : ℚ) ^ 2 * r) a ha hb
        (by positivity), hk2r]
      push_cast
      constructor <;> intro h <;> nlinarith [h]
